import Mathlib

set_option linter.unusedSectionVars false

/-!
# A shallow embedding of `src/priorityqueue.hh`

The C++ class `PriorityQueue<K, V>` keeps two `std::multiset`s over
`(shared_ptr<K>, shared_ptr<V>)` pairs:

* `pairs_by_K`, ordered by `CompByFst` (key first, value as tiebreak);
* `pairs_by_V`, ordered by `CompBySnd` (value first, key as tiebreak).

We model each multiset as a `List (K × V)` kept in its comparator order
(a `std::multiset` is exactly a sorted sequence with duplicates; `insert`
places a new element at the upper bound of its equivalence class).
`K` and `V` are arbitrary linear orders; for such types the comparator
equivalence of `CompByFst`/`CompBySnd` coincides with equality of pairs,
which matches the container's documented requirements on `K`/`V`
(`==` consistent with a strict weak ordering `<`).

Exceptions thrown by K/V copies, comparisons and allocations are modelled
with a *fuel* counter: every fallible primitive of the C++ code (a
`make_shared` copy, a `find`/`lower_bound`/`insert`/`==` that runs
comparisons, a backup-copy allocation, one element of a bulk range
`insert`) consumes one unit of fuel and throws `elemError` when the fuel
is exhausted.  Quantifying over the initial fuel quantifies over *which*
primitive operation throws (large fuel = no exception).  `erase` by
iterator and `swap` are `noexcept` in the source and consume no fuel.

Each public operation is a total Lean function from (fuel, state) to
(result, remaining fuel, state); the state returned alongside an
`Except.error` is the container state observable after the exception
escapes, including all rollback work done by the `catch` blocks.
-/

/-- The exceptions of the header: `PriorityQueueEmptyException`,
`PriorityQueueNotFoundException`, and any exception propagated from the
element types (K/V copy, comparison, allocation). -/
inductive PQError : Type where
  | emptyQueue : PQError
  | keyNotFound : PQError
  | elemError : PQError
deriving DecidableEq, Repr

/-- Consume one unit of fuel; `none` models a throwing primitive. -/
def tick : Nat → Option Nat
  | 0 => none
  | n + 1 => some n

variable {K V : Type} [LinearOrder K] [LinearOrder V]

/-- `CompByFst` (src lines 41-49): compare by key; if the keys are equal,
compare by value. -/
def keyLt (a b : K × V) : Bool :=
  if a.1 = b.1 then decide (a.2 < b.2) else decide (a.1 < b.1)

/-- `CompBySnd` (src lines 52-60): compare by value; if the values are
equal, compare by key. -/
def valLt (a b : K × V) : Bool :=
  if a.2 = b.2 then decide (a.1 < b.1) else decide (a.2 < b.2)

/-- `std::multiset::insert`: place `x` at the upper bound of its
equivalence class in a sorted sequence. -/
def insertUB {α : Type} (lt : α → α → Bool) (x : α) : List α → List α
  | [] => [x]
  | y :: ys => if lt x y then x :: y :: ys else y :: insertUB lt x ys

/-- The position (iterator) returned by `std::multiset::insert`:
the index at which `insertUB` places `x`. -/
def ubPos {α : Type} (lt : α → α → Bool) (x : α) : List α → Nat
  | [] => 0
  | y :: ys => if lt x y then 0 else ubPos lt x ys + 1

/-- `std::multiset::lower_bound x`: the first element `y` of the sorted
sequence with `¬ y < x` (`none` plays the role of the `end()` iterator). -/
def lowerB {α : Type} (lt : α → α → Bool) (x : α) : List α → Option α
  | [] => none
  | y :: ys => if lt y x then lowerB lt x ys else some y

/-- Bulk `insert(first, last)` of a `std::multiset` (used by `merge`):
insert the source elements one at a time; each element costs one unit of
fuel, and if an element's insertion throws, the elements already inserted
*stay* in the destination (the standard gives no rollback for range
insert — `merge`'s own backup/swap handles that). Returns
(completed?, remaining fuel, destination contents). -/
def rangeInsertE {α : Type} (lt : α → α → Bool) : Nat → List α → List α → Bool × Nat × List α
  | fuel, [], dst => (true, fuel, dst)
  | 0, _ :: _, dst => (false, 0, dst)
  | fuel + 1, x :: xs, dst => rangeInsertE lt fuel xs (insertUB lt x dst)

/-- The state of a (valid, non-moved-from) `PriorityQueue<K, V>`:
the contents of `*pairs_by_K` and `*pairs_by_V`, each in its comparator
order. -/
structure PQ (K V : Type) where
  byK : List (K × V)
  byV : List (K × V)
deriving DecidableEq, Repr

/-- The empty queue produced by the default constructor. -/
def PQ.emptyQ (K V : Type) : PQ K V := ⟨[], []⟩

/-- `size()` (src lines 145-151): `pairs_by_K->size()` (the code asserts
both multisets have the same size). -/
def PQ.sizeQ (q : PQ K V) : Nat := q.byK.length

/-- `empty()` (src lines 155-158): `size() == 0`. -/
def PQ.isEmpty (q : PQ K V) : Bool := q.sizeQ == 0

/-- `insert(key, value)` (src lines 162-201).  Steps and their fuel:
1. build `to_find` — copies of `key` and `value` (1 tick, no mutation);
2. `pairs_by_K->find(to_find)` — comparisons (1 tick, no mutation);
3. `inserted_K = pairs_by_K->insert(...)` (1 tick; a single-element
   multiset insert is itself strong, so a throw here leaves the state
   unchanged);
4. `inserted_V = pairs_by_V->insert(...)` (1 tick); if it throws, the
   `catch` erases `inserted_K` (no-throw) and rethrows.
The source distinguishes whether an equivalent pair already exists only
to share the existing `shared_ptr` storage; for linear orders comparator
equivalence is equality, so both branches insert a pair equal to
`(k, v)` — we keep the branch to mirror the code.  On success the C++
code leaves the iterators to the two fresh elements in the members
`inserted_K` / `inserted_V` (read later by `changeValue`); we return
their positions. -/
def insertE (k : K) (v : V) (fuel : Nat) (q : PQ K V) :
    Except PQError (Nat × Nat) × Nat × PQ K V :=
  match tick fuel with
  | none => (.error .elemError, 0, q)
  | some f1 =>
  match tick f1 with
  | none => (.error .elemError, 0, q)
  | some f2 =>
  if (k, v) ∈ q.byK then
    -- an equivalent pair exists: insert a copy of `*pair_iterator`
    match tick f2 with
    | none => (.error .elemError, 0, q)
    | some f3 =>
    match tick f3 with
    | none =>
      -- ValueIndex insert threw: erase `inserted_K` and rethrow
      (.error .elemError, 0,
        ⟨(insertUB keyLt (k, v) q.byK).eraseIdx (ubPos keyLt (k, v) q.byK), q.byV⟩)
    | some f4 =>
      (.ok (ubPos keyLt (k, v) q.byK, ubPos valLt (k, v) q.byV), f4,
        ⟨insertUB keyLt (k, v) q.byK, insertUB valLt (k, v) q.byV⟩)
  else
    -- no equivalent pair: insert the fresh `to_find` pair
    match tick f2 with
    | none => (.error .elemError, 0, q)
    | some f3 =>
    match tick f3 with
    | none =>
      (.error .elemError, 0,
        ⟨(insertUB keyLt (k, v) q.byK).eraseIdx (ubPos keyLt (k, v) q.byK), q.byV⟩)
    | some f4 =>
      (.ok (ubPos keyLt (k, v) q.byK, ubPos valLt (k, v) q.byV), f4,
        ⟨insertUB keyLt (k, v) q.byK, insertUB valLt (k, v) q.byV⟩)

/-- `minValue()` (src lines 205-210): throw `PQEmptyEx` if `empty()`,
else return `pairs_by_V->begin()->second`.  (The `head?` fallback is
unreachable when the two indexes have equal size.) -/
def minValueE (q : PQ K V) : Except PQError V :=
  if q.isEmpty then .error .emptyQueue
  else
    match q.byV.head? with
    | none => .error .emptyQueue
    | some p => .ok p.2

/-- `maxValue()` (src lines 214-219): throw `PQEmptyEx` if `empty()`,
else return `pairs_by_V->rbegin()->second`. -/
def maxValueE (q : PQ K V) : Except PQError V :=
  if q.isEmpty then .error .emptyQueue
  else
    match q.byV.getLast? with
    | none => .error .emptyQueue
    | some p => .ok p.2

/-- `minKey()` (src lines 223-228): throw `PQEmptyEx` if `empty()`,
else return `pairs_by_V->begin()->first`. -/
def minKeyE (q : PQ K V) : Except PQError K :=
  if q.isEmpty then .error .emptyQueue
  else
    match q.byV.head? with
    | none => .error .emptyQueue
    | some p => .ok p.1

/-- `maxKey()` (src lines 232-237): throw `PQEmptyEx` if `empty()`,
else return `pairs_by_V->rbegin()->first`. -/
def maxKeyE (q : PQ K V) : Except PQError K :=
  if q.isEmpty then .error .emptyQueue
  else
    match q.byV.getLast? with
    | none => .error .emptyQueue
    | some p => .ok p.1

/-- `deleteMin()` (src lines 241-250): return silently if `empty()`;
`to_delete1 = pairs_by_V->begin()`, `to_delete2 = pairs_by_K->find(*to_delete1)`
(1 tick of comparisons, before any mutation), then erase both
(`erase` by iterator is no-throw).  Erasing `find`'s result removes one
occurrence equal to the pair. -/
def deleteMinE (fuel : Nat) (q : PQ K V) : Except PQError Unit × Nat × PQ K V :=
  if q.isEmpty then (.ok (), fuel, q)
  else
    match q.byV with
    | [] => (.ok (), fuel, q) -- unreachable when the two indexes have equal size
    | p :: rest =>
      match tick fuel with
      | none => (.error .elemError, 0, q)
      | some f1 => (.ok (), f1, ⟨q.byK.erase p, rest⟩)

/-- `deleteMax()` (src lines 254-264): like `deleteMin` with
`to_delete1 = --pairs_by_V->end()`. -/
def deleteMaxE (fuel : Nat) (q : PQ K V) : Except PQError Unit × Nat × PQ K V :=
  if q.isEmpty then (.ok (), fuel, q)
  else
    match q.byV.getLast? with
    | none => (.ok (), fuel, q) -- unreachable when the two indexes have equal size
    | some p =>
      match tick fuel with
      | none => (.error .elemError, 0, q)
      | some f1 => (.ok (), f1, ⟨q.byK.erase p, q.byV.dropLast⟩)

/-- `changeValue(key, value)` (src lines 268-306).  Steps and fuel:
1. `to_find = make_pair(make_shared<K>(key), make_shared<V>(minValue()))`:
   `minValue()` throws `PQEmptyEx` on an empty queue; the two copies cost
   1 tick; no mutation;
2. `pair_iterator = pairs_by_K->lower_bound(to_find)` — comparisons
   (1 tick, no mutation);
3. `if (pair_iterator == end() || !(*pair_iterator->first == key)) throw
   PQNotFoundEx` — the `==` runs only when the iterator is not `end()`
   (1 tick);
4. `pair_to_delete = *pair_iterator` (a `shared_ptr` copy, no-throw);
5. `insert(key, value)` — the strong-guarantee insert above; a throw
   propagates with the state it left (unchanged);
6. re-`find` `pair_to_delete` in `pairs_by_K` (1 tick) and `pairs_by_V`
   (1 tick); if either throws, the `catch` erases the `inserted_K` /
   `inserted_V` elements recorded by step 5 (no-throw) and rethrows;
7. erase the found old pair from both indexes (no-throw): one occurrence
   equal to `pair_to_delete` is removed from each. -/
def changeValueE (k : K) (v : V) (fuel : Nat) (q : PQ K V) :
    Except PQError Unit × Nat × PQ K V :=
  match minValueE q with
  | .error e => (.error e, fuel, q)
  | .ok mv =>
  match tick fuel with
  | none => (.error .elemError, 0, q)
  | some f1 =>
  match tick f1 with
  | none => (.error .elemError, 0, q)
  | some f2 =>
  match lowerB keyLt (k, mv) q.byK with
  | none => (.error .keyNotFound, f2, q)
  | some p =>
    match tick f2 with
    | none => (.error .elemError, 0, q)
    | some f3 =>
    if p.1 = k then
      match insertE k v f3 q with
      | (.error e, f4, q1) => (.error e, f4, q1)
      | (.ok (pK, pV), f4, q1) =>
        match tick f4 with
        | none => (.error .elemError, 0, ⟨q1.byK.eraseIdx pK, q1.byV.eraseIdx pV⟩)
        | some f5 =>
        match tick f5 with
        | none => (.error .elemError, 0, ⟨q1.byK.eraseIdx pK, q1.byV.eraseIdx pV⟩)
        | some f6 => (.ok (), f6, ⟨q1.byK.erase p, q1.byV.erase p⟩)
    else (.error .keyNotFound, f3, q)

/-- `merge(queue)` (src lines 314-329).  `aliased` models the pointer
identity test `this != &queue`: when the two references are the same
object the whole body is skipped.  Otherwise:
1. `tmp = *this` — the backup copy's allocations (1 tick, no mutation);
2. bulk-insert `queue.pairs_by_K` into `pairs_by_K`, then
   `queue.pairs_by_V` into `pairs_by_V`; if anything throws partway, the
   `catch` swaps `*this` with the backup (no-throw), discarding all
   partial insertions, and rethrows — `queue` is untouched;
3. on success, `queue.clear()` (no-throw) empties the argument.
Returns (result, fuel, new `*this`, new `queue`). -/
def mergeE (aliased : Bool) (fuel : Nat) (a b : PQ K V) :
    Except PQError Unit × Nat × PQ K V × PQ K V :=
  if aliased then (.ok (), fuel, a, b)
  else
    match tick fuel with
    | none => (.error .elemError, 0, a, b)
    | some f1 =>
    match rangeInsertE keyLt f1 b.byK a.byK with
    | (false, _, _) => (.error .elemError, 0, a, b)
    | (true, f2, aK) =>
      match rangeInsertE valLt f2 b.byV a.byV with
      | (false, _, _) => (.error .elemError, 0, a, b)
      | (true, f3, aV) => (.ok (), f3, ⟨aK, aV⟩, PQ.emptyQ K V)

/-- The loop of `operator==` (src lines 371-383): walk the first queue's
KeyIndex, comparing keys and values pairwise.  The caller has already
checked the sizes are equal, so the second list cannot run out first;
the `[]` branch for a longer first list mirrors that unreachability. -/
def pqEqAux : List (K × V) → List (K × V) → Bool
  | [], _ => true
  | _ :: _, [] => true -- unreachable: the caller checked equal sizes
  | p :: ps, r :: rs => if p.1 = r.1 ∧ p.2 = r.2 then pqEqAux ps rs else false

/-- `operator==` (src lines 361-386): equal sizes, then (if non-empty)
lock-step comparison of the two KeyIndex sequences. -/
def pqEq (a b : PQ K V) : Bool :=
  if a.sizeQ = b.sizeQ then
    if a.sizeQ = 0 then true
    else pqEqAux a.byK b.byK
  else false

/-- A list is in `std::multiset` order for the strict comparator `lt`:
no later element is strictly below an earlier one. -/
def SortedBy {α : Type} (lt : α → α → Bool) (l : List α) : Prop :=
  List.Pairwise (fun a b => lt b a = false) l

/-- The representation invariant of a (non-moved-from) queue: both
indexes are in their comparator order and hold the same multiset of
pairs. -/
def Valid (q : PQ K V) : Prop :=
  SortedBy keyLt q.byK ∧ SortedBy valLt q.byV ∧ q.byK.Perm q.byV

/-- A sequence of `insert` calls (each with just enough fuel to
succeed), as used to build a queue from a list of pairs. -/
def insertAll (l : List (K × V)) (q : PQ K V) : PQ K V :=
  l.foldl (fun s p => (insertE p.1 p.2 4 s).2.2) q

instance {α : Type} (lt : α → α → Bool) (l : List α) : Decidable (SortedBy lt l) :=
  decidable_of_iff (List.Pairwise (fun a b => lt b a = false) l) Iff.rfl

instance (q : PQ K V) : Decidable (Valid q) :=
  decidable_of_iff
    (SortedBy keyLt q.byK ∧ SortedBy valLt q.byV ∧ q.byK.Perm q.byV) Iff.rfl

/-- Both multiset pairs of the spec's invariants 1 and 2: the two indexes
have equal cardinality and hold the same multiset of entries. -/
def SameMul (q : PQ K V) : Prop :=
  q.byK.length = q.byV.length ∧ q.byK.Perm q.byV

/-- The comparators are strict linear orders (the header requires `==`
and `<` on `K`/`V` to behave like this). -/
structure StrictLin {α : Type} (lt : α → α → Bool) : Prop where
  irrefl : ∀ a, lt a a = false
  trans : ∀ a b c, lt a b = true → lt b c = true → lt a c = true
  antisym : ∀ a b, lt a b = false → lt b a = false → a = b

theorem StrictLin.asymm {α : Type} {lt : α → α → Bool} (h : StrictLin lt)
    {a b : α} (hab : lt a b = true) : lt b a = false := by
  by_contra hba
  have hba' : lt b a = true := by revert hba; cases lt b a <;> simp
  have := h.trans a b a hab hba'
  rw [h.irrefl] at this
  exact Bool.false_ne_true this

theorem keyLt_iff (a b : K × V) :
    keyLt a b = true ↔ a.1 < b.1 ∨ (a.1 = b.1 ∧ a.2 < b.2) := by
  unfold keyLt
  by_cases h : a.1 = b.1 <;> simp [h]

theorem valLt_iff (a b : K × V) :
    valLt a b = true ↔ a.2 < b.2 ∨ (a.2 = b.2 ∧ a.1 < b.1) := by
  unfold valLt
  by_cases h : a.2 = b.2 <;> simp [h]

theorem keyLt_strict : StrictLin (keyLt (K := K) (V := V)) := by
  refine ⟨?_, ?_, ?_⟩
  · intro a; simp [keyLt]
  · intro a b c hab hbc
    rw [keyLt_iff] at hab hbc ⊢
    rcases hab with h1 | ⟨h1, h1'⟩ <;> rcases hbc with h2 | ⟨h2, h2'⟩
    · exact Or.inl (lt_trans h1 h2)
    · exact Or.inl (h2 ▸ h1)
    · exact Or.inl (h1 ▸ h2)
    · exact Or.inr ⟨h1.trans h2, lt_trans h1' h2'⟩
  · intro a b hab hba
    have h1 : ¬(a.1 < b.1 ∨ (a.1 = b.1 ∧ a.2 < b.2)) := by
      rw [← keyLt_iff, hab]; simp
    have h2 : ¬(b.1 < a.1 ∨ (b.1 = a.1 ∧ b.2 < a.2)) := by
      rw [← keyLt_iff, hba]; simp
    push_neg at h1 h2
    rcases lt_trichotomy a.1 b.1 with hk | hk | hk
    · exact absurd hk (not_lt.mpr h1.1)
    · rcases lt_trichotomy a.2 b.2 with hv | hv | hv
      · exact absurd hv (not_lt.mpr (h1.2 hk))
      · exact Prod.ext hk hv
      · exact absurd hv (not_lt.mpr (h2.2 hk.symm))
    · exact absurd hk (not_lt.mpr h2.1)

theorem valLt_strict : StrictLin (valLt (K := K) (V := V)) := by
  refine ⟨?_, ?_, ?_⟩
  · intro a; simp [valLt]
  · intro a b c hab hbc
    rw [valLt_iff] at hab hbc ⊢
    rcases hab with h1 | ⟨h1, h1'⟩ <;> rcases hbc with h2 | ⟨h2, h2'⟩
    · exact Or.inl (lt_trans h1 h2)
    · exact Or.inl (h2 ▸ h1)
    · exact Or.inl (h1 ▸ h2)
    · exact Or.inr ⟨h1.trans h2, lt_trans h1' h2'⟩
  · intro a b hab hba
    have h1 : ¬(a.2 < b.2 ∨ (a.2 = b.2 ∧ a.1 < b.1)) := by
      rw [← valLt_iff, hab]; simp
    have h2 : ¬(b.2 < a.2 ∨ (b.2 = a.2 ∧ b.1 < a.1)) := by
      rw [← valLt_iff, hba]; simp
    push_neg at h1 h2
    rcases lt_trichotomy a.2 b.2 with hv | hv | hv
    · exact absurd hv (not_lt.mpr h1.1)
    · rcases lt_trichotomy a.1 b.1 with hk | hk | hk
      · exact absurd hk (not_lt.mpr (h1.2 hv))
      · exact Prod.ext hk hv
      · exact absurd hk (not_lt.mpr (h2.2 hv.symm))
    · exact absurd hv (not_lt.mpr h2.1)

theorem valLt_false_snd {a b : K × V} (h : valLt a b = false) : b.2 ≤ a.2 := by
  have h' : ¬(a.2 < b.2 ∨ (a.2 = b.2 ∧ a.1 < b.1)) := by
    rw [← valLt_iff, h]; simp
  push_neg at h'
  rcases lt_trichotomy a.2 b.2 with hv | hv | hv
  · exact absurd hv (not_lt.mpr h'.1)
  · exact le_of_eq hv.symm
  · exact le_of_lt hv

theorem valLt_of_snd_lt {a b : K × V} (h : a.2 < b.2) : valLt a b = true :=
  (valLt_iff a b).mpr (Or.inl h)

theorem keyLt_false_snd {a b : K × V} (hk : a.1 = b.1) (h : keyLt a b = false) :
    b.2 ≤ a.2 := by
  have h' : ¬(a.1 < b.1 ∨ (a.1 = b.1 ∧ a.2 < b.2)) := by
    rw [← keyLt_iff, h]; simp
  push_neg at h'
  rcases lt_trichotomy a.2 b.2 with hv | hv | hv
  · exact absurd hv (not_lt.mpr (h'.2 hk))
  · exact le_of_eq hv.symm
  · exact le_of_lt hv

theorem keyLt_false_of_key_eq_le {a b : K × V} (hk : a.1 = b.1) (hv : b.2 ≤ a.2) :
    keyLt a b = false := by
  rw [← Bool.not_eq_true, keyLt_iff]
  push_neg
  exact ⟨le_of_eq hk.symm, fun _ => hv⟩

theorem insertUB_perm {α : Type} (lt : α → α → Bool) (x : α) (l : List α) :
    (insertUB lt x l).Perm (x :: l) := by
  induction l with
  | nil => simp [insertUB]
  | cons y ys ih =>
    unfold insertUB
    split
    · exact List.Perm.refl _
    · exact (ih.cons y).trans (List.Perm.swap x y ys)

theorem length_insertUB {α : Type} (lt : α → α → Bool) (x : α) (l : List α) :
    (insertUB lt x l).length = l.length + 1 := by
  rw [(insertUB_perm lt x l).length_eq]; rfl

theorem mem_insertUB {α : Type} {lt : α → α → Bool} {x a : α} {l : List α} :
    a ∈ insertUB lt x l ↔ a = x ∨ a ∈ l := by
  rw [(insertUB_perm lt x l).mem_iff]; simp

theorem eraseIdx_insertUB {α : Type} (lt : α → α → Bool) (x : α) (l : List α) :
    (insertUB lt x l).eraseIdx (ubPos lt x l) = l := by
  induction l with
  | nil => rfl
  | cons y ys ih =>
    unfold insertUB ubPos
    by_cases h : lt x y
    · simp [h]
    · simp [h, List.eraseIdx_cons_succ, ih]

theorem insertUB_sorted {α : Type} {lt : α → α → Bool} (hs : StrictLin lt)
    {l : List α} (h : SortedBy lt l) (x : α) : SortedBy lt (insertUB lt x l) := by
  induction l with
  | nil => simp [insertUB, SortedBy]
  | cons y ys ih =>
    rw [SortedBy, List.pairwise_cons] at h
    obtain ⟨hy, hys⟩ := h
    unfold insertUB
    split
    · rename_i hxy
      rw [SortedBy, List.pairwise_cons]
      refine ⟨?_, List.pairwise_cons.mpr ⟨hy, hys⟩⟩
      intro z hz
      rcases List.mem_cons.mp hz with rfl | hz
      · exact hs.asymm hxy
      · by_contra hzx
        have hzx' : lt z x = true := by revert hzx; cases lt z x <;> simp
        have hzy : lt z y = true := hs.trans _ _ _ hzx' hxy
        rw [hy z hz] at hzy
        exact Bool.false_ne_true hzy
    · rename_i hxy
      rw [SortedBy, List.pairwise_cons]
      refine ⟨?_, ih hys⟩
      intro z hz
      rcases mem_insertUB.mp hz with rfl | hz
      · simpa using hxy
      · exact hy z hz

theorem lowerB_mem {α : Type} {lt : α → α → Bool} {x y : α} {l : List α}
    (h : lowerB lt x l = some y) : y ∈ l := by
  induction l with
  | nil => simp [lowerB] at h
  | cons z zs ih =>
    unfold lowerB at h
    split at h
    · exact List.mem_cons_of_mem _ (ih h)
    · cases h; exact List.mem_cons_self _ _

theorem lowerB_not_lt {α : Type} {lt : α → α → Bool} {x y : α} {l : List α}
    (h : lowerB lt x l = some y) : lt y x = false := by
  induction l with
  | nil => simp [lowerB] at h
  | cons z zs ih =>
    unfold lowerB at h
    split at h
    · exact ih h
    · cases h; rename_i hzx; simpa using hzx

theorem lowerB_first {α : Type} {lt : α → α → Bool} (hs : StrictLin lt)
    {l : List α} {x y : α} (hsort : SortedBy lt l) (h : lowerB lt x l = some y) :
    ∀ z ∈ l, lt z x = false → lt z y = false := by
  induction l with
  | nil => simp [lowerB] at h
  | cons w ws ih =>
    rw [SortedBy, List.pairwise_cons] at hsort
    obtain ⟨hw, hws⟩ := hsort
    unfold lowerB at h
    split at h
    · rename_i hwx
      intro z hz hzx
      rcases List.mem_cons.mp hz with rfl | hz
      · rw [hwx] at hzx; exact absurd hzx (by simp)
      · exact ih hws h z hz hzx
    · cases h
      intro z hz _
      rcases List.mem_cons.mp hz with rfl | hz
      · exact hs.irrefl z
      · exact hw z hz

theorem lowerB_none {α : Type} {lt : α → α → Bool} {x : α} {l : List α}
    (h : lowerB lt x l = none) : ∀ z ∈ l, lt z x = true := by
  induction l with
  | nil => simp
  | cons w ws ih =>
    unfold lowerB at h
    split at h
    · rename_i hwx
      intro z hz
      rcases List.mem_cons.mp hz with rfl | hz
      · exact hwx
      · exact ih h z hz
    · simp at h

theorem sorted_head_min {α : Type} {lt : α → α → Bool} (hs : StrictLin lt)
    {p : α} {rest : List α} (h : SortedBy lt (p :: rest)) :
    ∀ z ∈ p :: rest, lt z p = false := by
  intro z hz
  rcases List.mem_cons.mp hz with rfl | hz
  · exact hs.irrefl z
  · exact (List.pairwise_cons.mp h).1 z hz

theorem getLast?_perm_dropLast {α : Type} {l : List α} {p : α}
    (h : l.getLast? = some p) : l.Perm (p :: l.dropLast) := by
  induction l with
  | nil => simp at h
  | cons y ys ih =>
    cases ys with
    | nil =>
      simp at h
      subst h
      simp
    | cons y' ys' =>
      rw [List.getLast?_cons_cons] at h
      have hperm := ih h
      have h1 : (y :: y' :: ys').Perm (y :: p :: (y' :: ys').dropLast) := hperm.cons y
      have h2 : (y :: p :: (y' :: ys').dropLast).Perm (p :: y :: (y' :: ys').dropLast) :=
        List.Perm.swap p y _
      have h3 : p :: y :: (y' :: ys').dropLast = p :: (y :: y' :: ys').dropLast := rfl
      exact h3 ▸ (h1.trans h2)

theorem sorted_getLast_max {α : Type} {lt : α → α → Bool} (hs : StrictLin lt)
    {l : List α} {p : α} (hsort : SortedBy lt l) (h : l.getLast? = some p) :
    ∀ z ∈ l, lt p z = false := by
  induction l with
  | nil => simp at h
  | cons y ys ih =>
    cases ys with
    | nil =>
      simp at h
      subst h
      intro z hz
      rcases List.mem_cons.mp hz with rfl | hz
      · exact hs.irrefl z
      · simp at hz
    | cons y' ys' =>
      rw [List.getLast?_cons_cons] at h
      rw [SortedBy, List.pairwise_cons] at hsort
      obtain ⟨hy, hys⟩ := hsort
      intro z hz
      rcases List.mem_cons.mp hz with rfl | hz
      · have hpmem : p ∈ y' :: ys' := (getLast?_perm_dropLast h).mem_iff.mpr (by simp)
        exact hy p hpmem
      · exact ih hys h z hz

theorem rangeInsertE_ok_perm {α : Type} {lt : α → α → Bool} :
    ∀ {fuel : Nat} {src dst out : List α} {f : Nat},
      rangeInsertE lt fuel src dst = (true, f, out) → out.Perm (src ++ dst) := by
  intro fuel src
  induction src generalizing fuel with
  | nil =>
    intro dst out f h
    rw [rangeInsertE] at h
    cases h
    simp
  | cons x xs ih =>
    intro dst out f h
    cases fuel with
    | zero => rw [rangeInsertE] at h; simp at h
    | succ n =>
      rw [rangeInsertE] at h
      have h1 := ih h
      have h2 : (xs ++ insertUB lt x dst).Perm (xs ++ x :: dst) :=
        List.Perm.append_left xs (insertUB_perm lt x dst)
      exact (h1.trans h2).trans List.perm_middle

theorem rangeInsertE_ok_sorted {α : Type} {lt : α → α → Bool} (hs : StrictLin lt) :
    ∀ {fuel : Nat} {src dst out : List α} {f : Nat}, SortedBy lt dst →
      rangeInsertE lt fuel src dst = (true, f, out) → SortedBy lt out := by
  intro fuel src
  induction src generalizing fuel with
  | nil =>
    intro dst out f hd h
    rw [rangeInsertE] at h
    cases h
    exact hd
  | cons x xs ih =>
    intro dst out f hd h
    cases fuel with
    | zero => rw [rangeInsertE] at h; simp at h
    | succ n =>
      rw [rangeInsertE] at h
      exact ih (insertUB_sorted hs hd x) h

theorem tick_succ (n : Nat) : tick (n + 1) = some n := rfl

theorem insertE_error {k : K} {v : V} {fuel : Nat} {q q' : PQ K V} {e : PQError} {f : Nat}
    (h : insertE k v fuel q = (.error e, f, q')) : q' = q ∧ e = .elemError := by
  unfold insertE at h
  repeat' split at h
  all_goals try simp_all [eraseIdx_insertUB]
  all_goals (obtain ⟨h1, h2, h3⟩ := h; exact h3.symm)

theorem insertE_ok {k : K} {v : V} {fuel : Nat} {q q1 : PQ K V} {w : Nat × Nat} {f : Nat}
    (h : insertE k v fuel q = (.ok w, f, q1)) :
    q1 = ⟨insertUB keyLt (k, v) q.byK, insertUB valLt (k, v) q.byV⟩ ∧
      w = (ubPos keyLt (k, v) q.byK, ubPos valLt (k, v) q.byV) := by
  unfold insertE at h
  repeat' split at h
  all_goals simp_all

theorem insertE_enough (k : K) (v : V) (n : Nat) (q : PQ K V) :
    insertE k v (n + 4) q =
      (.ok (ubPos keyLt (k, v) q.byK, ubPos valLt (k, v) q.byV), n,
        ⟨insertUB keyLt (k, v) q.byK, insertUB valLt (k, v) q.byV⟩) := by
  have h4 : n + 4 = n + 1 + 1 + 1 + 1 := by omega
  rw [h4]
  simp only [insertE, tick_succ]
  split <;> rfl

theorem deleteMinE_error {fuel f : Nat} {q q' : PQ K V} {e : PQError}
    (h : deleteMinE fuel q = (.error e, f, q')) : q' = q := by
  unfold deleteMinE at h
  repeat' split at h
  all_goals simp_all

theorem deleteMinE_ok {fuel f : Nat} {q q' : PQ K V}
    (hp : q.byK.Perm q.byV) (hne : q.isEmpty = false)
    (h : deleteMinE fuel q = (.ok (), f, q')) :
    ∃ p rest, q.byV = p :: rest ∧ q' = ⟨q.byK.erase p, rest⟩ := by
  unfold deleteMinE at h
  rw [hne] at h
  simp only [Bool.false_eq_true, if_false] at h
  split at h
  · rename_i heq
    have hlen := hp.length_eq
    rw [heq, List.length_nil] at hlen
    rw [PQ.isEmpty, PQ.sizeQ, hlen] at hne
    simp at hne
  · rename_i p rest heq
    split at h
    · simp at h
    · cases h
      exact ⟨p, rest, heq, rfl⟩

theorem deleteMaxE_error {fuel f : Nat} {q q' : PQ K V} {e : PQError}
    (h : deleteMaxE fuel q = (.error e, f, q')) : q' = q := by
  unfold deleteMaxE at h
  repeat' split at h
  all_goals simp_all

theorem deleteMaxE_ok {fuel f : Nat} {q q' : PQ K V}
    (hp : q.byK.Perm q.byV) (hne : q.isEmpty = false)
    (h : deleteMaxE fuel q = (.ok (), f, q')) :
    ∃ p, q.byV.getLast? = some p ∧ q' = ⟨q.byK.erase p, q.byV.dropLast⟩ := by
  unfold deleteMaxE at h
  rw [hne] at h
  simp only [Bool.false_eq_true, if_false] at h
  split at h
  · rename_i heq
    rw [List.getLast?_eq_none_iff] at heq
    have hlen := hp.length_eq
    rw [heq, List.length_nil] at hlen
    rw [PQ.isEmpty, PQ.sizeQ, hlen] at hne
    simp at hne
  · rename_i p heq
    split at h
    · simp at h
    · cases h
      exact ⟨p, heq, rfl⟩

theorem changeValueE_error {k : K} {v : V} {fuel f : Nat} {q q' : PQ K V} {e : PQError}
    (h : changeValueE k v fuel q = (.error e, f, q')) : q' = q := by
  unfold changeValueE at h
  repeat' split at h
  all_goals try simp_all [eraseIdx_insertUB]
  · rename_i hins
    exact (insertE_error hins).1
  · rename_i hins x0 htk
    obtain ⟨h1, h2, h3⟩ := h
    obtain ⟨hq1, hw⟩ := insertE_ok hins
    subst hq1
    simp only [Prod.mk.injEq] at hw
    rw [← h3, hw.1, hw.2]
    simp [eraseIdx_insertUB]
  · rename_i hins x1 f4 htk1 x0 htk
    obtain ⟨h1, h2, h3⟩ := h
    obtain ⟨hq1, hw⟩ := insertE_ok hins
    subst hq1
    simp only [Prod.mk.injEq] at hw
    rw [← h3, hw.1, hw.2]
    simp [eraseIdx_insertUB]

theorem changeValueE_ok {k : K} {v : V} {fuel f : Nat} {q q' : PQ K V}
    (h : changeValueE k v fuel q = (.ok (), f, q')) :
    ∃ mv p, minValueE q = .ok mv ∧ lowerB keyLt (k, mv) q.byK = some p ∧ p.1 = k ∧
      q' = ⟨(insertUB keyLt (k, v) q.byK).erase p,
            (insertUB valLt (k, v) q.byV).erase p⟩ := by
  unfold changeValueE at h
  repeat' split at h
  all_goals try simp_all
  rename_i hins x1 f41 htk1 x0 f40 htk0
  obtain ⟨h1, h2⟩ := h
  obtain ⟨hq1, hw⟩ := insertE_ok hins
  subst hq1
  exact ⟨_, _, rfl, by assumption, h2.symm⟩

theorem beq_prod_eq_decide (x a : K × V) : (x == a) = decide (x = a) := by
  show (decide (x.1 = a.1) && decide (x.2 = a.2)) = decide (x = a)
  by_cases h1 : x.1 = a.1 <;> by_cases h2 : x.2 = a.2 <;>
    simp [h1, h2, Prod.ext_iff]

theorem beq_dec_eq_decide (x a : K × V) :
    (@BEq.beq _ instBEqOfDecidableEq x a) = decide (x = a) := rfl

theorem erase_instances_eq (l : List (K × V)) (a : K × V) :
    @List.erase (K × V) instBEqOfDecidableEq l a = l.erase a := by
  induction l with
  | nil => rfl
  | cons x xs ih =>
    simp only [List.erase_cons, beq_prod_eq_decide, beq_dec_eq_decide, ih]

theorem erase_cons_self {α : Type} [DecidableEq α] (p : α) (l : List α) :
    (p :: l).erase p = l := by
  rw [List.erase_cons]
  simp

theorem mergeE_error {fuel f : Nat} {a b a' b' : PQ K V} {e : PQError}
    (h : mergeE false fuel a b = (.error e, f, a', b')) : a' = a ∧ b' = b := by
  unfold mergeE at h
  repeat' split at h
  all_goals simp_all

theorem mergeE_ok {fuel f : Nat} {a b a' b' : PQ K V}
    (h : mergeE false fuel a b = (.ok (), f, a', b')) :
    b' = PQ.emptyQ K V ∧
      ∃ f1 f2, rangeInsertE keyLt f1 b.byK a.byK = (true, f2, a'.byK) ∧
        rangeInsertE valLt f2 b.byV a.byV = (true, f, a'.byV) := by
  unfold mergeE at h
  repeat' split at h
  all_goals try simp_all
  rename_i x1 f31 aK hK x0 f30 aV hV
  obtain ⟨h1, h2, h3⟩ := h
  subst h2
  exact ⟨_, _, hK, hV⟩

theorem valid_emptyQ : Valid (PQ.emptyQ K V) :=
  ⟨List.Pairwise.nil, List.Pairwise.nil, List.Perm.nil⟩

theorem valid_insert_pair {q : PQ K V} (hq : Valid q) (k : K) (v : V) :
    Valid (⟨insertUB keyLt (k, v) q.byK, insertUB valLt (k, v) q.byV⟩ : PQ K V) := by
  obtain ⟨hk, hv, hp⟩ := hq
  exact ⟨insertUB_sorted keyLt_strict hk (k, v), insertUB_sorted valLt_strict hv (k, v),
    (insertUB_perm _ _ _).trans ((hp.cons _).trans (insertUB_perm _ _ _).symm)⟩

theorem valid_insertE (k : K) (v : V) (fuel : Nat) {q : PQ K V} (hq : Valid q) :
    Valid (insertE k v fuel q).2.2 := by
  rcases hres : insertE k v fuel q with ⟨r, f, q'⟩
  cases r with
  | error e =>
    show Valid q'
    rw [(insertE_error hres).1]
    exact hq
  | ok w =>
    show Valid q'
    rw [(insertE_ok hres).1]
    exact valid_insert_pair hq k v

theorem valid_changeValueE (k : K) (v : V) (fuel : Nat) {q : PQ K V} (hq : Valid q) :
    Valid (changeValueE k v fuel q).2.2 := by
  rcases hres : changeValueE k v fuel q with ⟨r, f, q'⟩
  cases r with
  | error e =>
    show Valid q'
    rw [changeValueE_error hres]
    exact hq
  | ok u =>
    cases u
    show Valid q'
    obtain ⟨mv, p, hmv, hlb, hpk, hq'⟩ := changeValueE_ok hres
    subst hq'
    obtain ⟨hk, hv, hp⟩ := hq
    refine ⟨?_, ?_, ?_⟩
    · exact List.Pairwise.sublist (List.erase_sublist _ _) (insertUB_sorted keyLt_strict hk _)
    · exact List.Pairwise.sublist (List.erase_sublist _ _) (insertUB_sorted valLt_strict hv _)
    · show ((insertUB keyLt (k, v) q.byK).erase p).Perm ((insertUB valLt (k, v) q.byV).erase p)
      rw [← erase_instances_eq, ← erase_instances_eq]
      exact ((insertUB_perm _ _ _).trans ((hp.cons _).trans (insertUB_perm _ _ _).symm)).erase p

theorem valid_deleteMinE (fuel : Nat) {q : PQ K V} (hq : Valid q) :
    Valid (deleteMinE fuel q).2.2 := by
  rcases hres : deleteMinE fuel q with ⟨r, f, q'⟩
  cases r with
  | error e =>
    show Valid q'
    rw [deleteMinE_error hres]
    exact hq
  | ok u =>
    cases u
    show Valid q'
    by_cases hemp : q.isEmpty
    · have hnop : deleteMinE fuel q = (.ok (), fuel, q) := by
        unfold deleteMinE
        rw [hemp]
        simp
      rw [hres] at hnop
      simp only [Prod.mk.injEq] at hnop
      rw [hnop.2.2]
      exact hq
    · obtain ⟨p, rest, hbv, hq'⟩ :=
        deleteMinE_ok hq.2.2 (by simpa using hemp) hres
      subst hq'
      obtain ⟨hk, hv, hp⟩ := hq
      refine ⟨List.Pairwise.sublist (List.erase_sublist _ _) hk, ?_, ?_⟩
      · rw [hbv] at hv
        exact (List.pairwise_cons.mp hv).2
      · show (q.byK.erase p).Perm rest
        have h2 := (hbv ▸ hp).erase p
        rw [erase_cons_self, erase_instances_eq] at h2
        exact h2

theorem valid_deleteMaxE (fuel : Nat) {q : PQ K V} (hq : Valid q) :
    Valid (deleteMaxE fuel q).2.2 := by
  rcases hres : deleteMaxE fuel q with ⟨r, f, q'⟩
  cases r with
  | error e =>
    show Valid q'
    rw [deleteMaxE_error hres]
    exact hq
  | ok u =>
    cases u
    show Valid q'
    by_cases hemp : q.isEmpty
    · have hnop : deleteMaxE fuel q = (.ok (), fuel, q) := by
        unfold deleteMaxE
        rw [hemp]
        simp
      rw [hres] at hnop
      simp only [Prod.mk.injEq] at hnop
      rw [hnop.2.2]
      exact hq
    · obtain ⟨p, hlast, hq'⟩ :=
        deleteMaxE_ok hq.2.2 (by simpa using hemp) hres
      subst hq'
      obtain ⟨hk, hv, hp⟩ := hq
      have hpv : q.byV.Perm (p :: q.byV.dropLast) := getLast?_perm_dropLast hlast
      refine ⟨List.Pairwise.sublist (List.erase_sublist _ _) hk,
              List.Pairwise.sublist (List.dropLast_sublist _) hv, ?_⟩
      show (q.byK.erase p).Perm q.byV.dropLast
      have h2 := (hp.trans hpv).erase p
      rw [erase_cons_self, erase_instances_eq] at h2
      exact h2

theorem valid_mergeE (aliased : Bool) (fuel : Nat) {a b : PQ K V}
    (ha : Valid a) (hb : Valid b) :
    Valid (mergeE aliased fuel a b).2.2.1 ∧ Valid (mergeE aliased fuel a b).2.2.2 := by
  cases aliased with
  | true =>
    simp only [mergeE, if_true]
    exact ⟨ha, hb⟩
  | false =>
    rcases hres : mergeE false fuel a b with ⟨r, f, a', b'⟩
    cases r with
    | error e =>
      obtain ⟨h1, h2⟩ := mergeE_error hres
      show Valid a' ∧ Valid b'
      rw [h1, h2]
      exact ⟨ha, hb⟩
    | ok u =>
      cases u
      show Valid a' ∧ Valid b'
      obtain ⟨hb', f1, f2, hK, hV⟩ := mergeE_ok hres
      refine ⟨⟨rangeInsertE_ok_sorted keyLt_strict ha.1 hK,
               rangeInsertE_ok_sorted valLt_strict ha.2.1 hV, ?_⟩, hb' ▸ valid_emptyQ⟩
      exact (rangeInsertE_ok_perm hK).trans
        ((hb.2.2.append ha.2.2).trans (rangeInsertE_ok_perm hV).symm)

theorem byV_ne_nil {q : PQ K V} (hq : Valid q) (hne : q.isEmpty = false) :
    ∃ p rest, q.byV = p :: rest := by
  cases hv : q.byV with
  | cons p rest => exact ⟨p, rest, rfl⟩
  | nil =>
    have hlen := hq.2.2.length_eq
    rw [hv, List.length_nil] at hlen
    rw [PQ.isEmpty, PQ.sizeQ, hlen] at hne
    simp at hne

theorem minE_eval {q : PQ K V} {p : K × V} {rest : List (K × V)}
    (hne : q.isEmpty = false) (hbv : q.byV = p :: rest) :
    minValueE q = .ok p.2 ∧ minKeyE q = .ok p.1 := by
  constructor <;> simp [minValueE, minKeyE, hne, hbv]

theorem maxE_eval {q : PQ K V} {p : K × V}
    (hne : q.isEmpty = false) (hlast : q.byV.getLast? = some p) :
    maxValueE q = .ok p.2 ∧ maxKeyE q = .ok p.1 := by
  constructor <;> simp [maxValueE, maxKeyE, hne, hlast]

theorem getLast?_exists {q : PQ K V} (hq : Valid q) (hne : q.isEmpty = false) :
    ∃ p, q.byV.getLast? = some p := by
  obtain ⟨p, rest, hbv⟩ := byV_ne_nil hq hne
  cases hL : q.byV.getLast? with
  | some pl => exact ⟨pl, rfl⟩
  | none =>
    rw [List.getLast?_eq_none_iff, hbv] at hL
    simp at hL

theorem min_bound {q : PQ K V} (hq : Valid q) {p : K × V} {rest : List (K × V)}
    (hbv : q.byV = p :: rest) : ∀ z ∈ q.byK, p.2 ≤ z.2 := by
  intro z hz
  have hzv : z ∈ q.byV := hq.2.2.mem_iff.mp hz
  have hf := sorted_head_min valLt_strict (hbv ▸ hq.2.1) z (hbv ▸ hzv)
  exact valLt_false_snd hf

theorem max_bound {q : PQ K V} (hq : Valid q) {p : K × V}
    (hlast : q.byV.getLast? = some p) : ∀ z ∈ q.byK, z.2 ≤ p.2 := by
  intro z hz
  have hzv : z ∈ q.byV := hq.2.2.mem_iff.mp hz
  have hf := sorted_getLast_max valLt_strict hq.2.1 hlast z hzv
  exact valLt_false_snd hf

theorem minValueE_ok_inv {q : PQ K V} {mv : V} (h : minValueE q = .ok mv) :
    q.isEmpty = false ∧ ∃ p rest, q.byV = p :: rest ∧ mv = p.2 := by
  unfold minValueE at h
  split at h
  · simp at h
  · rename_i hne
    split at h
    · simp at h
    · rename_i p hp
      cases h
      refine ⟨by simpa using hne, ?_⟩
      cases hhd : q.byV with
      | nil => rw [hhd] at hp; simp at hp
      | cons a rest =>
        rw [hhd, List.head?_cons] at hp
        injection hp with hap
        exact ⟨a, rest, rfl, by rw [hap]⟩

theorem maxValueE_ok_inv {q : PQ K V} {mv : V} (h : maxValueE q = .ok mv) :
    q.isEmpty = false ∧ ∃ p, q.byV.getLast? = some p ∧ mv = p.2 := by
  unfold maxValueE at h
  split at h
  · simp at h
  · rename_i hne
    split at h
    · simp at h
    · rename_i p hp
      cases h
      exact ⟨by simpa using hne, p, hp, rfl⟩

theorem insertAll_cons (p : K × V) (ps : List (K × V)) (q : PQ K V) :
    insertAll (p :: ps) q =
      insertAll ps (⟨insertUB keyLt p q.byK, insertUB valLt p q.byV⟩ : PQ K V) := by
  have hstep := insertE_enough p.1 p.2 0 q
  simp only [Nat.zero_add] at hstep
  simp only [insertAll, List.foldl_cons, hstep]

theorem insertAll_perm (l : List (K × V)) (q : PQ K V) :
    (insertAll l q).byK.Perm (l ++ q.byK) ∧ (insertAll l q).byV.Perm (l ++ q.byV) := by
  induction l generalizing q with
  | nil => constructor <;> simp [insertAll]
  | cons p ps ih =>
    rw [insertAll_cons]
    obtain ⟨ihK, ihV⟩ := ih (⟨insertUB keyLt p q.byK, insertUB valLt p q.byV⟩ : PQ K V)
    constructor
    · exact ihK.trans ((List.Perm.append_left ps (insertUB_perm _ _ _)).trans List.perm_middle)
    · exact ihV.trans ((List.Perm.append_left ps (insertUB_perm _ _ _)).trans List.perm_middle)

theorem valid_insertAll (l : List (K × V)) {q : PQ K V} (hq : Valid q) :
    Valid (insertAll l q) := by
  induction l generalizing q with
  | nil => exact hq
  | cons p ps ih =>
    rw [insertAll_cons]
    exact ih (valid_insert_pair hq p.1 p.2)

theorem pqEqAux_refl (l : List (K × V)) : pqEqAux l l = true := by
  induction l with
  | nil => rfl
  | cons p ps ih => simp [pqEqAux, ih]

theorem pqEqAux_eq {l1 l2 : List (K × V)} (hlen : l1.length = l2.length) :
    pqEqAux l1 l2 = true ↔ l1 = l2 := by
  induction l1 generalizing l2 with
  | nil =>
    cases l2 with
    | nil => simp [pqEqAux]
    | cons r rs => simp at hlen
  | cons p ps ih =>
    cases l2 with
    | nil => simp at hlen
    | cons r rs =>
      simp only [pqEqAux]
      by_cases h : p.1 = r.1 ∧ p.2 = r.2
      · have hpr : p = r := Prod.ext h.1 h.2
        subst hpr
        rw [if_pos h, ih (by simpa using hlen)]
        simp
      · rw [if_neg h]
        constructor
        · intro hf
          exact absurd hf (by simp)
        · intro hEq
          injection hEq with h1 h2
          exact absurd ⟨by rw [h1], by rw [h1]⟩ h

theorem pqEq_iff {a b : PQ K V} : pqEq a b = true ↔ a.byK = b.byK := by
  unfold pqEq
  by_cases hlen : a.sizeQ = b.sizeQ
  · rw [if_pos hlen]
    by_cases h0 : a.sizeQ = 0
    · rw [if_pos h0]
      have ha0 : a.byK = [] := List.length_eq_zero.mp h0
      have hb' : b.sizeQ = 0 := by rw [← hlen]; exact h0
      have hb0 : b.byK = [] := List.length_eq_zero.mp hb' 
      simp [ha0, hb0]
    · rw [if_neg h0]
      exact pqEqAux_eq hlen
  · rw [if_neg hlen]
    constructor
    · intro hf
      exact absurd hf (by simp)
    · intro hEq
      exact absurd (by rw [PQ.sizeQ, PQ.sizeQ, hEq]) hlen

theorem pqEq_of_perm {a b : PQ K V} (ha : Valid a) (hb : Valid b)
    (h : a.byK.Perm b.byK) : pqEq a b = true := by
  rw [pqEq_iff]
  haveI : IsAntisymm (K × V) (fun x y => keyLt y x = false) :=
    ⟨fun x y hxy hyx => keyLt_strict.antisym x y hyx hxy⟩
  exact List.eq_of_perm_of_sorted h ha.1 hb.1

/-- **C1** (error_handling): for every queue state and every exception
raised by a K/V comparison, copy, or allocation (any fuel exhaustion
point) during `insert`, `merge`, or `changeValue`, the operation rethrows
the exception (the result is `Except.error`) and the externally
observable state of the queue — and, for `merge`, of the argument
queue — is exactly what it was before the call. -/
theorem c1_strong_exception_guarantee (q other : PQ K V) :
    (∀ (k : K) (v : V) (fuel : Nat) (e : PQError) (f : Nat) (q' : PQ K V),
        insertE k v fuel q = (.error e, f, q') → q' = q)
    ∧ (∀ (k : K) (v : V) (fuel : Nat) (e : PQError) (f : Nat) (q' : PQ K V),
        changeValueE k v fuel q = (.error e, f, q') → q' = q)
    ∧ (∀ (fuel : Nat) (e : PQError) (f : Nat) (a' b' : PQ K V),
        mergeE false fuel q other = (.error e, f, a', b') → a' = q ∧ b' = other) :=
  ⟨fun _ _ _ _ _ _ h => (insertE_error h).1,
   fun _ _ _ _ _ _ h => changeValueE_error h,
   fun _ _ _ _ _ h => mergeE_error h⟩

theorem c1_witness :
    (insertE (K := Int) (V := Int) 0 1 0 ⟨[(5, 7)], [(5, 7)]⟩).2.2 = ⟨[(5, 7)], [(5, 7)]⟩
    ∧ (changeValueE (K := Int) (V := Int) 5 2 7 ⟨[(5, 7)], [(5, 7)]⟩).2.2 = ⟨[(5, 7)], [(5, 7)]⟩
    ∧ ((mergeE (K := Int) (V := Int) false 2 ⟨[(5, 7)], [(5, 7)]⟩ ⟨[(1, 1)], [(1, 1)]⟩).2.2.1
          = ⟨[(5, 7)], [(5, 7)]⟩
       ∧ (mergeE (K := Int) (V := Int) false 2 ⟨[(5, 7)], [(5, 7)]⟩ ⟨[(1, 1)], [(1, 1)]⟩).2.2.2
          = ⟨[(1, 1)], [(1, 1)]⟩) := by
  obtain ⟨h1, h2, h3⟩ :=
    c1_strong_exception_guarantee (⟨[(5, 7)], [(5, 7)]⟩ : PQ Int Int) ⟨[(1, 1)], [(1, 1)]⟩
  exact ⟨h1 0 1 0 .elemError 0 _ rfl,
         h2 5 2 7 .elemError 0 _ rfl,
         h3 2 .elemError 0 _ _ rfl⟩

/-- **C2** (invariants): after every public operation completes — normally
or by exception — the key-ordered index and the value-ordered index have
equal cardinality and contain exactly the same multiset of (key, value)
pairs. -/
theorem c2_index_synchronisation (q other : PQ K V) (hq : Valid q) (hother : Valid other) :
    (∀ (k : K) (v : V) (fuel : Nat), SameMul (insertE k v fuel q).2.2)
    ∧ (∀ fuel : Nat, SameMul (deleteMinE fuel q).2.2)
    ∧ (∀ fuel : Nat, SameMul (deleteMaxE fuel q).2.2)
    ∧ (∀ (k : K) (v : V) (fuel : Nat), SameMul (changeValueE k v fuel q).2.2)
    ∧ (∀ (aliased : Bool) (fuel : Nat),
        SameMul (mergeE aliased fuel q other).2.2.1 ∧
          SameMul (mergeE aliased fuel q other).2.2.2) := by
  have toSM : ∀ r : PQ K V, Valid r → SameMul r := fun r hr => ⟨hr.2.2.length_eq, hr.2.2⟩
  exact ⟨fun k v fuel => toSM _ (valid_insertE k v fuel hq),
         fun fuel => toSM _ (valid_deleteMinE fuel hq),
         fun fuel => toSM _ (valid_deleteMaxE fuel hq),
         fun k v fuel => toSM _ (valid_changeValueE k v fuel hq),
         fun aliased fuel => ⟨toSM _ (valid_mergeE aliased fuel hq hother).1,
                              toSM _ (valid_mergeE aliased fuel hq hother).2⟩⟩

theorem c2_witness :
    SameMul ((insertE (K := Int) (V := Int) 7 7 9 ⟨[(1, 10), (2, 5)], [(2, 5), (1, 10)]⟩).2.2)
    ∧ SameMul ((deleteMinE (K := Int) (V := Int) 9 ⟨[(1, 10), (2, 5)], [(2, 5), (1, 10)]⟩).2.2)
    ∧ SameMul ((deleteMaxE (K := Int) (V := Int) 9 ⟨[(1, 10), (2, 5)], [(2, 5), (1, 10)]⟩).2.2)
    ∧ SameMul ((changeValueE (K := Int) (V := Int) 1 3 9
        ⟨[(1, 10), (2, 5)], [(2, 5), (1, 10)]⟩).2.2)
    ∧ SameMul ((mergeE (K := Int) (V := Int) false 9 ⟨[(1, 10), (2, 5)], [(2, 5), (1, 10)]⟩
        ⟨[(3, 1)], [(3, 1)]⟩).2.2.1) := by
  obtain ⟨h1, h2, h3, h4, h5⟩ := c2_index_synchronisation
    (⟨[(1, 10), (2, 5)], [(2, 5), (1, 10)]⟩ : PQ Int Int) ⟨[(3, 1)], [(3, 1)]⟩
    (by decide) (by decide)
  exact ⟨h1 7 7 9, h2 9, h3 9, h4 1 3 9, (h5 false 9).1⟩

/-- **C4** (functional_correctness): a successful `insert(key, value)` adds
exactly one (key, value) pair to the stored multiset and leaves every
other entry unchanged (both indexes become permutations of the old
contents with one `(k, v)` added), so `size()` grows by one — also when
equal keys or equal (key, value) pairs are already present; and a
sequence of (fully fuelled) inserts grows `size()` by exactly the number
of inserts. -/
theorem c4_insert_adds_one (q : PQ K V) (k : K) (v : V) (hq : Valid q) :
    (∀ (fuel f : Nat) (w : Nat × Nat) (q' : PQ K V),
        insertE k v fuel q = (.ok w, f, q') →
          q'.byK.Perm ((k, v) :: q.byK) ∧ q'.byV.Perm ((k, v) :: q.byV) ∧
            q'.sizeQ = q.sizeQ + 1)
    ∧ (∀ l : List (K × V),
        (insertAll l q).sizeQ = q.sizeQ + l.length ∧
          (insertAll l q).byK.Perm (l ++ q.byK)) := by
  constructor
  · intro fuel f w q' h
    obtain ⟨hq', hw⟩ := insertE_ok h
    subst hq'
    refine ⟨insertUB_perm _ _ _, insertUB_perm _ _ _, ?_⟩
    show (insertUB keyLt (k, v) q.byK).length = q.byK.length + 1
    exact length_insertUB _ _ _
  · intro l
    obtain ⟨hK, hV⟩ := insertAll_perm l q
    refine ⟨?_, hK⟩
    show (insertAll l q).byK.length = q.byK.length + l.length
    rw [hK.length_eq, List.length_append]
    omega

theorem c4_witness :
    ((insertE (K := Int) (V := Int) 1 10 9 ⟨[(1, 10)], [(1, 10)]⟩).2.2.byK).Perm
        ((1, 10) :: [(1, 10)])
    ∧ (insertAll (K := Int) (V := Int) [(1, 10), (2, 5), (1, 10)]
        ⟨[(1, 10)], [(1, 10)]⟩).sizeQ = (⟨[(1, 10)], [(1, 10)]⟩ : PQ Int Int).sizeQ + 3 := by
  obtain ⟨h1, h2⟩ := c4_insert_adds_one (⟨[(1, 10)], [(1, 10)]⟩ : PQ Int Int) 1 10 (by decide)
  exact ⟨(h1 9 5 (1, 1) _ rfl).1, (h2 [(1, 10), (2, 5), (1, 10)]).1⟩

/-- **C5** (functional_correctness): after a successful `a.merge(b)` on
distinct queues, `b` is empty and `a` holds the multiset union of the two
original contents (so `a.size()` is the sum of the original sizes and
every pair originally in either queue is in `a`); and self-merge
`a.merge(a)` (the aliased call, whose body is skipped) is a no-op. -/
theorem c5_merge (a b : PQ K V) (ha : Valid a) (hb : Valid b) :
    (∀ (fuel f : Nat) (a' b' : PQ K V),
        mergeE false fuel a b = (.ok (), f, a', b') →
          b' = PQ.emptyQ K V ∧
          a'.byK.Perm (a.byK ++ b.byK) ∧ a'.byV.Perm (a.byV ++ b.byV) ∧
          a'.sizeQ = a.sizeQ + b.sizeQ ∧
          (∀ p ∈ a.byK, p ∈ a'.byK) ∧ (∀ p ∈ b.byK, p ∈ a'.byK))
    ∧ (∀ fuel : Nat, mergeE true fuel a a = (.ok (), fuel, a, a)) := by
  constructor
  · intro fuel f a' b' h
    obtain ⟨hb', f1, f2, hK, hV⟩ := mergeE_ok h
    have hpK : a'.byK.Perm (a.byK ++ b.byK) :=
      (rangeInsertE_ok_perm hK).trans List.perm_append_comm
    have hpV : a'.byV.Perm (a.byV ++ b.byV) :=
      (rangeInsertE_ok_perm hV).trans List.perm_append_comm
    refine ⟨hb', hpK, hpV, ?_, ?_, ?_⟩
    · show a'.byK.length = a.byK.length + b.byK.length
      rw [hpK.length_eq, List.length_append]
    · intro p hp
      exact hpK.mem_iff.mpr (List.mem_append.mpr (Or.inl hp))
    · intro p hp
      exact hpK.mem_iff.mpr (List.mem_append.mpr (Or.inr hp))
  · intro fuel
    rfl

theorem c5_witness :
    ((⟨[(1, 10), (2, 5)], [(2, 5), (1, 10)]⟩ : PQ Int Int)).byK.Perm ([(1, 10)] ++ [(2, 5)])
    ∧ mergeE (K := Int) (V := Int) true 9 ⟨[(1, 10)], [(1, 10)]⟩ ⟨[(1, 10)], [(1, 10)]⟩
        = (.ok (), 9, ⟨[(1, 10)], [(1, 10)]⟩, ⟨[(1, 10)], [(1, 10)]⟩) := by
  obtain ⟨h1, h2⟩ := c5_merge (⟨[(1, 10)], [(1, 10)]⟩ : PQ Int Int) ⟨[(2, 5)], [(2, 5)]⟩
    (by decide) (by decide)
  exact ⟨(h1 9 6 ⟨[(1, 10), (2, 5)], [(2, 5), (1, 10)]⟩ (PQ.emptyQ Int Int) rfl).2.1,
         h2 9⟩

/-- **C3** counterexample: on the *empty* queue with an absent key,
`changeValue` does not signal the key-not-found error; it throws the
empty-queue error instead, because the search pair is built from
`minValue()` (src line 271), which throws `PQEmptyEx` first. -/
theorem c3_counterexample :
    changeValueE (K := Int) (V := Int) 0 0 9 (PQ.emptyQ Int Int)
      = (.error .emptyQueue, 9, PQ.emptyQ Int Int)
    ∧ PQError.emptyQueue ≠ PQError.keyNotFound :=
  ⟨rfl, by decide⟩

/-- **C3** as amended: on a *non-empty* valid queue, `changeValue` with a
key absent from the queue (and enough fuel that no element-type exception
fires first) signals the key-not-found error and leaves the container
unchanged; on the empty queue it signals the empty-queue error instead,
also leaving the container unchanged. -/
theorem c3_changeValue_absent_key (q : PQ K V) (k : K) (v : V) (fuel : Nat)
    (hq : Valid q) (habs : ∀ p ∈ q.byK, p.1 ≠ k) (hfuel : 3 ≤ fuel) :
    (q.isEmpty = false →
        (changeValueE k v fuel q).1 = .error .keyNotFound ∧
          (changeValueE k v fuel q).2.2 = q)
    ∧ (q.isEmpty = true →
        (changeValueE k v fuel q).1 = .error .emptyQueue ∧
          (changeValueE k v fuel q).2.2 = q) := by
  constructor
  · intro hne
    obtain ⟨p0, rest0, hbv⟩ := byV_ne_nil hq hne
    have hmv : minValueE q = .ok p0.2 := (minE_eval hne hbv).1
    obtain ⟨m, rfl⟩ : ∃ m, fuel = m + 1 + 1 + 1 := ⟨fuel - 3, by omega⟩
    simp only [changeValueE, hmv, tick_succ]
    cases hlb : lowerB keyLt (k, p0.2) q.byK with
    | none => simp [hlb]
    | some p =>
      have hpk : p.1 ≠ k := habs p (lowerB_mem hlb)
      simp [hlb, hpk]
  · intro hemp
    have hmv : minValueE q = .error .emptyQueue := by simp [minValueE, hemp]
    constructor <;> simp [changeValueE, hmv]

theorem c3_witness :
    (changeValueE (K := Int) (V := Int) 5 2 9 ⟨[(1, 10)], [(1, 10)]⟩).1
        = .error .keyNotFound
    ∧ (changeValueE (K := Int) (V := Int) 5 2 9 ⟨[(1, 10)], [(1, 10)]⟩).2.2
        = ⟨[(1, 10)], [(1, 10)]⟩ :=
  (c3_changeValue_absent_key (⟨[(1, 10)], [(1, 10)]⟩ : PQ Int Int) 5 2 9
    (by decide) (by decide) (by omega)).1 rfl

/-- **C6** (functional_correctness): `deleteMin`/`deleteMax` are no-ops
(not errors) on the empty queue; on a non-empty queue a successful call
removes exactly one entry whose value is `minValue()` (resp.
`maxValue()`), leaving all other entries unchanged, so `size()` drops by
one; when non-empty `minValue() ≤ maxValue()`; and the value returned by
`minValue()` can only grow (or stay equal) across a successful
`deleteMin`. -/
theorem c6_deleteMin_deleteMax (q : PQ K V) (hq : Valid q) :
    (q.isEmpty = true → ∀ fuel : Nat,
        deleteMinE fuel q = (.ok (), fuel, q) ∧ deleteMaxE fuel q = (.ok (), fuel, q))
    ∧ (∀ (fuel f : Nat) (q' : PQ K V), deleteMinE fuel q = (.ok (), f, q') →
        q.isEmpty = false →
          q'.sizeQ + 1 = q.sizeQ ∧
          ∃ p, minValueE q = .ok p.2 ∧ p ∈ q.byV ∧
            q.byK.Perm (p :: q'.byK) ∧ q.byV.Perm (p :: q'.byV))
    ∧ (∀ (fuel f : Nat) (q' : PQ K V), deleteMaxE fuel q = (.ok (), f, q') →
        q.isEmpty = false →
          q'.sizeQ + 1 = q.sizeQ ∧
          ∃ p, maxValueE q = .ok p.2 ∧ p ∈ q.byV ∧
            q.byK.Perm (p :: q'.byK) ∧ q.byV.Perm (p :: q'.byV))
    ∧ (∀ mv Mv : V, minValueE q = .ok mv → maxValueE q = .ok Mv → mv ≤ Mv)
    ∧ (∀ (fuel f : Nat) (q' : PQ K V) (mv mv' : V),
        deleteMinE fuel q = (.ok (), f, q') → minValueE q = .ok mv →
          minValueE q' = .ok mv' → mv ≤ mv') := by
  refine ⟨?_, ?_, ?_, ?_, ?_⟩
  · intro hemp fuel
    constructor <;> simp [deleteMinE, deleteMaxE, hemp]
  · intro fuel f q' h hne
    obtain ⟨p, rest, hbv, hq'⟩ := deleteMinE_ok hq.2.2 hne h
    subst hq'
    have hmem : p ∈ q.byK := hq.2.2.mem_iff.mpr (by rw [hbv]; exact List.mem_cons_self _ _)
    have hKperm : q.byK.Perm (p :: q.byK.erase p) := by
      have h0 := List.perm_cons_erase hmem
      rwa [erase_instances_eq] at h0
    refine ⟨?_, p, (minE_eval hne hbv).1, by rw [hbv]; exact List.mem_cons_self _ _,
            hKperm, by rw [hbv]⟩
    show (q.byK.erase p).length + 1 = q.byK.length
    have hlen := hKperm.length_eq
    simp at hlen
    omega
  · intro fuel f q' h hne
    obtain ⟨p, hlast, hq'⟩ := deleteMaxE_ok hq.2.2 hne h
    subst hq'
    have hVperm : q.byV.Perm (p :: q.byV.dropLast) := getLast?_perm_dropLast hlast
    have hmem : p ∈ q.byK :=
      hq.2.2.mem_iff.mpr (hVperm.mem_iff.mpr (List.mem_cons_self _ _))
    have hKperm : q.byK.Perm (p :: q.byK.erase p) := by
      have h0 := List.perm_cons_erase hmem
      rwa [erase_instances_eq] at h0
    refine ⟨?_, p, (maxE_eval hne hlast).1,
            hVperm.mem_iff.mpr (List.mem_cons_self _ _), hKperm, hVperm⟩
    show (q.byK.erase p).length + 1 = q.byK.length
    have hlen := hKperm.length_eq
    simp at hlen
    omega
  · intro mv Mv hmin hmax
    obtain ⟨hne, p, rest, hbv, hmv⟩ := minValueE_ok_inv hmin
    obtain ⟨-, pl, hlast, hMv⟩ := maxValueE_ok_inv hmax
    subst hmv hMv
    have hplK : pl ∈ q.byK :=
      hq.2.2.mem_iff.mpr ((getLast?_perm_dropLast hlast).mem_iff.mpr (List.mem_cons_self _ _))
    exact min_bound hq hbv pl hplK
  · intro fuel f q' mv mv' h hmin hmin'
    obtain ⟨hne0, p, rest, hbv, hmv⟩ := minValueE_ok_inv hmin
    obtain ⟨p2, rest2, hbv2, hq'⟩ := deleteMinE_ok hq.2.2 hne0 h
    rw [hbv] at hbv2
    injection hbv2 with he1 he2
    subst hq'
    obtain ⟨hne', p', rest', hbv', hmv'⟩ := minValueE_ok_inv hmin'
    subst hmv hmv'
    have hsv := hq.2.1
    rw [hbv] at hsv
    have hp'mem : p' ∈ rest := by
      rw [he2]
      show p' ∈ (⟨q.byK.erase p2, rest2⟩ : PQ K V).byV
      rw [hbv']
      exact List.mem_cons_self _ _
    have hrel := (List.pairwise_cons.mp hsv).1 p' hp'mem
    exact valLt_false_snd hrel

theorem c6_witness :
    ((deleteMinE (K := Int) (V := Int) 5 ⟨[(1, 10), (2, 5)], [(2, 5), (1, 10)]⟩).2.2.sizeQ + 1
        = (⟨[(1, 10), (2, 5)], [(2, 5), (1, 10)]⟩ : PQ Int Int).sizeQ)
    ∧ (5 : Int) ≤ 10
    ∧ deleteMinE (K := Int) (V := Int) 3 (PQ.emptyQ Int Int) = (.ok (), 3, PQ.emptyQ Int Int) := by
  obtain ⟨h1, h2, h3, h4, h5⟩ := c6_deleteMin_deleteMax
    (⟨[(1, 10), (2, 5)], [(2, 5), (1, 10)]⟩ : PQ Int Int) (by decide)
  refine ⟨(h2 5 4 _ rfl rfl).1, h4 5 10 rfl rfl, ?_⟩
  exact ((c6_deleteMin_deleteMax (PQ.emptyQ Int Int) (by decide)).1 rfl 3).1

/-- **C7** (error_handling): each of `minValue()`, `maxValue()`,
`minKey()`, `maxKey()` throws the empty-queue error exactly when the
queue is empty; these accessors are pure reads (they take the state and
return only a result, never a modified state); on a non-empty queue they
return the value/key of the first (min) or last (max) element of the
value-ordered index, so `minValue()` is the least value present and
`maxValue()` the greatest. -/
theorem c7_minmax_accessors (q : PQ K V) (hq : Valid q) :
    ((minValueE q = .error .emptyQueue) ↔ q.isEmpty = true)
    ∧ ((maxValueE q = .error .emptyQueue) ↔ q.isEmpty = true)
    ∧ ((minKeyE q = .error .emptyQueue) ↔ q.isEmpty = true)
    ∧ ((maxKeyE q = .error .emptyQueue) ↔ q.isEmpty = true)
    ∧ (q.isEmpty = false →
        ∃ pmin pmax, q.byV.head? = some pmin ∧ q.byV.getLast? = some pmax ∧
          minValueE q = .ok pmin.2 ∧ minKeyE q = .ok pmin.1 ∧
          maxValueE q = .ok pmax.2 ∧ maxKeyE q = .ok pmax.1 ∧
          ∀ p ∈ q.byK, pmin.2 ≤ p.2 ∧ p.2 ≤ pmax.2) := by
  by_cases hemp : q.isEmpty
  · refine ⟨?_, ?_, ?_, ?_, ?_⟩ <;>
      simp [minValueE, maxValueE, minKeyE, maxKeyE, hemp]
  · have hne : q.isEmpty = false := by simpa using hemp
    obtain ⟨pmin, rest, hbv⟩ := byV_ne_nil hq hne
    obtain ⟨pmax, hlast⟩ := getLast?_exists hq hne
    obtain ⟨hminv, hmink⟩ := minE_eval hne hbv
    obtain ⟨hmaxv, hmaxk⟩ := maxE_eval hne hlast
    refine ⟨?_, ?_, ?_, ?_,
            fun _ => ⟨pmin, pmax, by rw [hbv]; rfl, hlast, hminv, hmink, hmaxv, hmaxk,
              fun p hp => ⟨min_bound hq hbv p hp, max_bound hq hlast p hp⟩⟩⟩
    · rw [hminv]; simp [hne]
    · rw [hmaxv]; simp [hne]
    · rw [hmink]; simp [hne]
    · rw [hmaxk]; simp [hne]

theorem c7_witness :
    ((minValueE (K := Int) (V := Int) ⟨[(1, 10), (2, 5)], [(2, 5), (1, 10)]⟩
        = .error .emptyQueue) ↔
      (⟨[(1, 10), (2, 5)], [(2, 5), (1, 10)]⟩ : PQ Int Int).isEmpty = true)
    ∧ (∃ pmin pmax : Int × Int,
        (⟨[(1, 10), (2, 5)], [(2, 5), (1, 10)]⟩ : PQ Int Int).byV.head? = some pmin ∧
        (⟨[(1, 10), (2, 5)], [(2, 5), (1, 10)]⟩ : PQ Int Int).byV.getLast? = some pmax ∧
        minValueE (K := Int) (V := Int) ⟨[(1, 10), (2, 5)], [(2, 5), (1, 10)]⟩ = .ok pmin.2 ∧
        minKeyE (K := Int) (V := Int) ⟨[(1, 10), (2, 5)], [(2, 5), (1, 10)]⟩ = .ok pmin.1 ∧
        maxValueE (K := Int) (V := Int) ⟨[(1, 10), (2, 5)], [(2, 5), (1, 10)]⟩ = .ok pmax.2 ∧
        maxKeyE (K := Int) (V := Int) ⟨[(1, 10), (2, 5)], [(2, 5), (1, 10)]⟩ = .ok pmax.1 ∧
        ∀ p ∈ (⟨[(1, 10), (2, 5)], [(2, 5), (1, 10)]⟩ : PQ Int Int).byK,
          pmin.2 ≤ p.2 ∧ p.2 ≤ pmax.2) := by
  obtain ⟨h1, h2, h3, h4, h5⟩ := c7_minmax_accessors
    (⟨[(1, 10), (2, 5)], [(2, 5), (1, 10)]⟩ : PQ Int Int) (by decide)
  exact ⟨h1, h5 rfl⟩

theorem zip_same_eq {α : Type} : ∀ (l : List α) (pr : α × α), pr ∈ l.zip l → pr.1 = pr.2 := by
  intro l
  induction l with
  | nil => intro pr h; simp at h
  | cons x xs ih =>
    intro pr h
    rw [List.zip_cons_cons] at h
    rcases List.mem_cons.mp h with rfl | h
    · rfl
    · exact ih pr h

theorem zip_pointwise_eq {α : Type} : ∀ {l1 l2 : List α}, l1.length = l2.length →
    (∀ pr ∈ l1.zip l2, pr.1 = pr.2) → l1 = l2 := by
  intro l1
  induction l1 with
  | nil =>
    intro l2 hlen _
    cases l2 with
    | nil => rfl
    | cons y ys => simp at hlen
  | cons x xs ih =>
    intro l2 hlen hz
    cases l2 with
    | nil => simp at hlen
    | cons y ys =>
      have hx : x = y :=
        hz (x, y) (by rw [List.zip_cons_cons]; exact List.mem_cons_self _ _)
      have hxs : xs = ys := ih (by simpa using hlen)
        (fun pr hpr => hz pr (by rw [List.zip_cons_cons]; exact List.mem_cons_of_mem _ hpr))
      rw [hx, hxs]

theorem perm_erase_prod {l1 l2 : List (K × V)} (a : K × V) (h : l1.Perm l2) :
    (l1.erase a).Perm (l2.erase a) := by
  rw [← erase_instances_eq, ← erase_instances_eq]
  exact h.erase a

theorem erase_cons_head_prod (a : K × V) (l : List (K × V)) : (a :: l).erase a = l := by
  rw [← erase_instances_eq]
  exact erase_cons_self a l

theorem erase_cons_ne_dec {α : Type} [DecidableEq α] {x p : α} (h : x ≠ p) (l : List α) :
    (x :: l).erase p = x :: l.erase p := by
  rw [List.erase_cons]
  simp [h]

theorem erase_cons_ne_prod {x p : K × V} (h : x ≠ p) (l : List (K × V)) :
    (x :: l).erase p = x :: l.erase p := by
  rw [← erase_instances_eq, ← erase_instances_eq]
  exact erase_cons_ne_dec h l

theorem cons_erase_perm {x p : K × V} {l : List (K × V)} (hp : p ∈ l) :
    ((x :: l).erase p).Perm (x :: l.erase p) := by
  by_cases hxp : x = p
  · subst hxp
    rw [erase_cons_head_prod]
    have h0 := List.perm_cons_erase hp
    rwa [erase_instances_eq] at h0
  · rw [erase_cons_ne_prod hxp]

/-- **C8** (algebraic_relational): `a == b` holds iff the two queues have
equal size and, walking both key-ordered sequences in lock step, every
corresponding pair of entries has equal key and equal value (two empty
queues are equal); for valid queues a permutation of contents already
forces equality, so two queues built by inserting the same multiset of
pairs in different orders compare equal. -/
theorem c8_equality (a b : PQ K V) (ha : Valid a) (hb : Valid b) :
    (pqEq a b = true ↔
        a.sizeQ = b.sizeQ ∧ ∀ pr ∈ a.byK.zip b.byK, pr.1.1 = pr.2.1 ∧ pr.1.2 = pr.2.2)
    ∧ (a.byK.Perm b.byK → pqEq a b = true)
    ∧ (∀ l1 l2 : List (K × V), l1.Perm l2 →
        pqEq (insertAll l1 (PQ.emptyQ K V)) (insertAll l2 (PQ.emptyQ K V)) = true) := by
  refine ⟨?_, pqEq_of_perm ha hb, ?_⟩
  · rw [pqEq_iff]
    constructor
    · intro hEq
      refine ⟨?_, ?_⟩
      · show a.byK.length = b.byK.length
        rw [hEq]
      · intro pr hpr
        rw [hEq] at hpr
        have h1 : pr.1 = pr.2 := zip_same_eq _ pr hpr
        exact ⟨by rw [h1], by rw [h1]⟩
    · rintro ⟨hlen, hz⟩
      exact zip_pointwise_eq hlen (fun pr hpr => Prod.ext (hz pr hpr).1 (hz pr hpr).2)
  · intro l1 l2 hperm
    have h1 := (insertAll_perm l1 (PQ.emptyQ K V)).1
    have h2 := (insertAll_perm l2 (PQ.emptyQ K V)).1
    simp only [PQ.emptyQ, List.append_nil] at h1 h2
    exact pqEq_of_perm (valid_insertAll l1 valid_emptyQ) (valid_insertAll l2 valid_emptyQ)
      (h1.trans (hperm.trans h2.symm))

theorem c8_witness :
    pqEq (insertAll (K := Int) (V := Int) [(1, 10), (2, 5)] (PQ.emptyQ Int Int))
         (insertAll (K := Int) (V := Int) [(2, 5), (1, 10)] (PQ.emptyQ Int Int)) = true
    ∧ pqEq (K := Int) (V := Int) ⟨[(1, 10)], [(1, 10)]⟩ ⟨[(1, 10)], [(1, 10)]⟩ = true := by
  obtain ⟨h1, h2, h3⟩ := c8_equality (⟨[(1, 10)], [(1, 10)]⟩ : PQ Int Int)
    ⟨[(1, 10)], [(1, 10)]⟩ (by decide) (by decide)
  exact ⟨h3 [(1, 10), (2, 5)] [(2, 5), (1, 10)] (by decide), h2 (List.Perm.refl _)⟩

/-- **C9** counterexample: starting from the valid queue `{(0, 1)}`,
`insert(0, 5)` followed by `changeValue(0, 7)` succeeds, yet the old
pair `(0, 5)` is *still present* afterwards — `changeValue` removed the
pre-existing entry `(0, 1)` (the key-0 entry with the least value), not
the just-inserted one, refuting the claim as stated for arbitrary initial
queue states. -/
theorem c9_counterexample :
    Valid (⟨[(0, 1)], [(0, 1)]⟩ : PQ Int Int)
    ∧ (insertE (K := Int) (V := Int) 0 5 20 ⟨[(0, 1)], [(0, 1)]⟩).1 = .ok (1, 1)
    ∧ (changeValueE (K := Int) (V := Int) 0 7 20
        ((insertE (K := Int) (V := Int) 0 5 20 ⟨[(0, 1)], [(0, 1)]⟩).2.2)).1 = .ok ()
    ∧ (0, 5) ∈ (changeValueE (K := Int) (V := Int) 0 7 20
        ((insertE (K := Int) (V := Int) 0 5 20 ⟨[(0, 1)], [(0, 1)]⟩).2.2)).2.2.byK :=
  ⟨by decide, rfl, rfl, by decide⟩

/-- **C9** as amended: when the starting valid queue holds *no* entry with
key `k` and `v ≠ v2`, a successful `insert(k, v)` followed by a
successful `changeValue(k, v2)` yields a queue whose contents are the old
multiset plus one `(k, v2)`; the old `(k, v)` pair is no longer present,
exactly one `(k, v2)` pair is present, and if `v2` is strictly below
every value originally stored then `minKey()` returns `k`. -/
theorem c9_insert_then_changeValue (q : PQ K V) (k : K) (v v2 : V)
    (hq : Valid q) (habs : ∀ p ∈ q.byK, p.1 ≠ k) (hvne : v ≠ v2) :
    ∀ (fuel1 f1 : Nat) (w : Nat × Nat) (q1 : PQ K V) (fuel2 f2 : Nat) (q2 : PQ K V),
      insertE k v fuel1 q = (.ok w, f1, q1) →
      changeValueE k v2 fuel2 q1 = (.ok (), f2, q2) →
        q2.byK.Perm ((k, v2) :: q.byK) ∧
        (k, v) ∉ q2.byK ∧
        (q2.byK.filter (fun p => decide (p = (k, v2)))).length = 1 ∧
        ((∀ p ∈ q.byK, v2 < p.2) → minKeyE q2 = .ok k) := by
  intro fuel1 f1 w q1 fuel2 f2 q2 hins hch
  obtain ⟨hq1, hw⟩ := insertE_ok hins
  subst hq1
  obtain ⟨mv, p, hmv, hlb, hpk, hq2⟩ := changeValueE_ok hch
  have hpmem : p ∈ insertUB keyLt (k, v) q.byK := lowerB_mem hlb
  have hp : p = (k, v) := by
    rcases mem_insertUB.mp hpmem with h | h
    · exact h
    · exact absurd hpk (habs p h)
  subst hp
  subst hq2
  have hne_pair : (k, v2) ≠ (k, v) := by
    intro hc
    injection hc with hc1 hc2
    exact hvne hc2.symm
  have hK2 : (((insertUB keyLt (k, v2) (insertUB keyLt (k, v) q.byK))).erase (k, v)).Perm
      ((k, v2) :: q.byK) := by
    have hstep : (insertUB keyLt (k, v2) (insertUB keyLt (k, v) q.byK)).Perm
        ((k, v2) :: (k, v) :: q.byK) :=
      (insertUB_perm _ _ _).trans ((insertUB_perm _ _ _).cons _)
    have h1 := perm_erase_prod (k, v) hstep
    rwa [erase_cons_ne_prod hne_pair, erase_cons_head_prod] at h1
  have hV2 : (((insertUB valLt (k, v2) (insertUB valLt (k, v) q.byV))).erase (k, v)).Perm
      ((k, v2) :: q.byV) := by
    have hstep : (insertUB valLt (k, v2) (insertUB valLt (k, v) q.byV)).Perm
        ((k, v2) :: (k, v) :: q.byV) :=
      (insertUB_perm _ _ _).trans ((insertUB_perm _ _ _).cons _)
    have h1 := perm_erase_prod (k, v) hstep
    rwa [erase_cons_ne_prod hne_pair, erase_cons_head_prod] at h1
  refine ⟨hK2, ?_, ?_, ?_⟩
  · intro hmem
    rcases List.mem_cons.mp (hK2.mem_iff.mp hmem) with h | h
    · exact hne_pair h.symm
    · exact habs (k, v) h rfl
  · have hperm := hK2.filter (fun p => decide (p = (k, v2)))
    rw [hperm.length_eq]
    rw [List.filter_cons_of_pos (by simp)]
    have hnil : q.byK.filter (fun p => decide (p = (k, v2))) = [] := by
      rw [List.filter_eq_nil]
      intro a ha
      simp only [decide_eq_true_eq]
      intro hc
      exact habs a ha (by rw [hc])
    rw [hnil]
    rfl
  · intro hlt
    have hq1v : Valid (⟨insertUB keyLt (k, v) q.byK, insertUB valLt (k, v) q.byV⟩ : PQ K V) :=
      valid_insert_pair hq k v
    have hq2v : Valid (⟨(insertUB keyLt (k, v2) (insertUB keyLt (k, v) q.byK)).erase (k, v),
        (insertUB valLt (k, v2) (insertUB valLt (k, v) q.byV)).erase (k, v)⟩ : PQ K V) := by
      have h0 := valid_changeValueE k v2 fuel2 hq1v
      rw [hch] at h0
      exact h0
    have hne2 : (⟨(insertUB keyLt (k, v2) (insertUB keyLt (k, v) q.byK)).erase (k, v),
        (insertUB valLt (k, v2) (insertUB valLt (k, v) q.byV)).erase (k, v)⟩ : PQ K V).isEmpty
        = false := by
      have hlen : ((insertUB keyLt (k, v2) (insertUB keyLt (k, v) q.byK)).erase
          (k, v)).length = q.byK.length + 1 := by
        rw [hK2.length_eq]
        rfl
      simp [PQ.isEmpty, PQ.sizeQ, hlen]
    obtain ⟨h0, rest0, hbv0⟩ := byV_ne_nil hq2v hne2
    have hbv0' : (insertUB valLt (k, v2) (insertUB valLt (k, v) q.byV)).erase (k, v)
        = h0 :: rest0 := hbv0
    have hhead : h0 = (k, v2) := by
      by_contra hne3
      have hmem0 : h0 ∈ (k, v2) :: q.byV :=
        hV2.mem_iff.mp (by rw [hbv0']; exact List.mem_cons_self _ _)
      rcases List.mem_cons.mp hmem0 with h | h
      · exact hne3 h
      · have hv2lt : valLt (k, v2) h0 = true :=
          valLt_of_snd_lt (hlt h0 (hq.2.2.mem_iff.mpr h))
        have hsorted : SortedBy valLt (h0 :: rest0) := by
          have h1 : SortedBy valLt
              ((insertUB valLt (k, v2) (insertUB valLt (k, v) q.byV)).erase (k, v)) :=
            hq2v.2.1
          rw [hbv0'] at h1
          exact h1
        have hkv2mem' : (k, v2) ∈ h0 :: rest0 := by
          rw [← hbv0']
          exact hV2.mem_iff.mpr (List.mem_cons_self _ _)
        have hmin0 := sorted_head_min valLt_strict hsorted (k, v2) hkv2mem'
        rw [hmin0] at hv2lt
        exact Bool.false_ne_true hv2lt
    have hmk := (minE_eval hne2 hbv0).2
    rw [hmk, hhead]

theorem c9_witness :
    ((changeValueE (K := Int) (V := Int) 0 3 20
        ((insertE (K := Int) (V := Int) 0 5 20 ⟨[(9, 9)], [(9, 9)]⟩).2.2)).2.2.byK).Perm
      ((0, 3) :: [(9, 9)])
    ∧ minKeyE ((changeValueE (K := Int) (V := Int) 0 3 20
        ((insertE (K := Int) (V := Int) 0 5 20 ⟨[(9, 9)], [(9, 9)]⟩).2.2)).2.2) = .ok 0 := by
  have h := c9_insert_then_changeValue (⟨[(9, 9)], [(9, 9)]⟩ : PQ Int Int) 0 5 3
    (by decide) (by decide) (by decide)
    20 16 (0, 0) _ 20 11 _ rfl rfl
  exact ⟨h.1, h.2.2.2 (by decide)⟩

/-- **C10** (functional_correctness): a successful `changeValue(k, v)` on
a queue containing key `k` removes exactly the key-`k` entry bearing the
smallest value (the first key-`k` entry in key-then-value order, found
via `lower_bound` on `(k, minValue())`), inserts one `(k, v)` entry, and
leaves every other entry — including other key-`k` entries — unchanged,
so `size()` is preserved. -/
theorem c10_changeValue_removes_least (q : PQ K V) (k : K) (v : V) (hq : Valid q) :
    ∀ (fuel f : Nat) (q' : PQ K V),
      changeValueE k v fuel q = (.ok (), f, q') →
        ∃ p, p ∈ q.byK ∧ p.1 = k ∧
          (∀ r ∈ q.byK, r.1 = k → p.2 ≤ r.2) ∧
          q'.byK.Perm ((k, v) :: q.byK.erase p) ∧
          q'.byV.Perm ((k, v) :: q.byV.erase p) ∧
          q'.sizeQ = q.sizeQ := by
  intro fuel f q' h
  obtain ⟨mv, p, hmv, hlb, hpk, hq'⟩ := changeValueE_ok h
  subst hq'
  have hpmem : p ∈ q.byK := lowerB_mem hlb
  have hpmemV : p ∈ q.byV := hq.2.2.mem_iff.mp hpmem
  refine ⟨p, hpmem, hpk, ?_, ?_, ?_, ?_⟩
  · intro r hr hrk
    obtain ⟨hne, p0, rest0, hbv0, hmv0⟩ := minValueE_ok_inv hmv
    have hmvler : mv ≤ r.2 := by
      rw [hmv0]
      exact min_bound hq hbv0 r hr
    have hrlt : keyLt r (k, mv) = false := keyLt_false_of_key_eq_le hrk hmvler
    have hfirst := lowerB_first keyLt_strict hq.1 hlb r hr hrlt
    exact keyLt_false_snd (by rw [hrk, hpk]) hfirst
  · show ((insertUB keyLt (k, v) q.byK).erase p).Perm ((k, v) :: q.byK.erase p)
    exact (perm_erase_prod p (insertUB_perm keyLt (k, v) q.byK)).trans
      (cons_erase_perm hpmem)
  · show ((insertUB valLt (k, v) q.byV).erase p).Perm ((k, v) :: q.byV.erase p)
    exact (perm_erase_prod p (insertUB_perm valLt (k, v) q.byV)).trans
      (cons_erase_perm hpmemV)
  · show ((insertUB keyLt (k, v) q.byK).erase p).length = q.byK.length
    have hm : p ∈ insertUB keyLt (k, v) q.byK := mem_insertUB.mpr (Or.inr hpmem)
    rw [List.length_erase_of_mem hm, length_insertUB]
    omega

theorem c10_witness :
    ∃ p : Int × Int, p ∈ (⟨[(0, 1), (0, 5)], [(0, 1), (0, 5)]⟩ : PQ Int Int).byK ∧ p.1 = 0 ∧
      (∀ r ∈ (⟨[(0, 1), (0, 5)], [(0, 1), (0, 5)]⟩ : PQ Int Int).byK, r.1 = 0 → p.2 ≤ r.2) ∧
      ((changeValueE (K := Int) (V := Int) 0 7 20
          ⟨[(0, 1), (0, 5)], [(0, 1), (0, 5)]⟩).2.2.byK).Perm
        ((0, 7) :: (⟨[(0, 1), (0, 5)], [(0, 1), (0, 5)]⟩ : PQ Int Int).byK.erase p) ∧
      ((changeValueE (K := Int) (V := Int) 0 7 20
          ⟨[(0, 1), (0, 5)], [(0, 1), (0, 5)]⟩).2.2.byV).Perm
        ((0, 7) :: (⟨[(0, 1), (0, 5)], [(0, 1), (0, 5)]⟩ : PQ Int Int).byV.erase p) ∧
      (changeValueE (K := Int) (V := Int) 0 7 20
          ⟨[(0, 1), (0, 5)], [(0, 1), (0, 5)]⟩).2.2.sizeQ
        = (⟨[(0, 1), (0, 5)], [(0, 1), (0, 5)]⟩ : PQ Int Int).sizeQ :=
  c10_changeValue_removes_least (⟨[(0, 1), (0, 5)], [(0, 1), (0, 5)]⟩ : PQ Int Int) 0 7
    (by decide) 20 11 _ rfl
